import Mathlib

/-!
# PDF-to-Markdown reconstruction engine: verification of the design claims

Shallow embedding of the converter implemented in `src/LogAnalysis.js`
(`convertPdfToMarkdown` and `formatAsMarkdown`).  Strings are modelled as
Lean `String`s manipulated through their character lists (the JS code is
ASCII-oriented; the whitespace class models the JavaScript `\s` / `trim`
whitespace set restricted to its common members).  JavaScript numbers are
modelled as rationals `ℚ`; in the source the only arithmetic performed on
coordinates is `Math.round`, modelled by `jsRound` below.
-/

namespace MdView

/-- JavaScript whitespace (`\s`, `String.prototype.trim`), restricted to the
ASCII members plus no-break space. -/
def jsIsSpace (c : Char) : Bool :=
  c = ' ' || c = '\t' || c = '\n' || c = '\r' || c = '\x0b' || c = '\x0c' || c = ' '

/-- Strip `jsIsSpace` characters from both ends of a character list
(JavaScript `String.prototype.trim`). -/
def trimChars (cs : List Char) : List Char :=
  ((cs.dropWhile jsIsSpace).reverse.dropWhile jsIsSpace).reverse

/-- JavaScript `s.trim()`. -/
def jsTrim (s : String) : String := ⟨trimChars s.data⟩

/-- ASCII lower-casing of one character (JavaScript `toLowerCase` restricted
to ASCII, which covers the font-name comparisons in the source). -/
def lowerChar (c : Char) : Char :=
  if 'A' ≤ c && c ≤ 'Z' then Char.ofNat (c.toNat + 32) else c

/-- Model of `s.toLowerCase()` on the character list. -/
def lowerStr (s : String) : List Char := s.data.map lowerChar

/-- JavaScript `s.toLowerCase().includes(pat)` for a lowercase ASCII `pat`. -/
def lowerIncludes (s : String) (pat : String) : Bool :=
  decide (pat.data <:+: lowerStr s)

/-- The test `/^\d+$/.test(s)`: `s` is one or more ASCII digits. -/
def isDigitStr (s : String) : Bool :=
  !s.data.isEmpty && s.data.all Char.isDigit

/-- JavaScript `Math.round`: the closest integer, ties towards `+∞`
(`Math.round(-2.5) = -2`).  On exact rationals this is `⌊q + 1/2⌋`,
computed here on the numerator/denominator representation. -/
def jsRound (q : ℚ) : ℤ := (2 * q.num + (q.den : ℤ)) / (2 * (q.den : ℤ))

theorem jsRound_eq_floor (q : ℚ) : jsRound q = ⌊q + 1/2⌋ := by
  have hd : (0 : ℚ) < (q.den : ℚ) := by positivity
  have h1 : q + 1/2 = ((2 * q.num + (q.den : ℤ) : ℤ) : ℚ) / ((2 * q.den : ℕ) : ℚ) := by
    have hne : ((q.den : ℚ)) ≠ 0 := ne_of_gt hd
    conv_lhs => rw [← Rat.num_div_den q]
    push_cast
    field_simp
    ring
  rw [jsRound, h1, Rat.floor_intCast_div_natCast]
  norm_num

/-- A glyph run as supplied by the extraction layer: in the source,
`text = item.str`, `x = item.transform[4]`, `y = item.transform[5]`,
`fontSize = Math.abs(item.transform[0])`, `fontName = item.fontName || ''`. -/
structure GlyphRun where
  text : String
  x : ℚ
  y : ℚ
  fontSize : ℚ
  fontName : String
deriving DecidableEq, Repr

/-- The `regularFont` value is a JavaScript string or `undefined`; `none` models
`undefined` (the value of `sortedFonts[0]?.[0]` on an empty font table). -/
abbrev RegularFont := Option String

/-- Bold test from the source:
`fontName.toLowerCase().includes('bold') || …('heavy') || …('black') ||
(fontName !== regularFont && fontName !== '')`.
`some fontName ≠ rf` models JavaScript `fontName !== regularFont`
(a string is always `!==` `undefined`). -/
def isBold (rf : RegularFont) (fontName : String) : Bool :=
  lowerIncludes fontName "bold" || lowerIncludes fontName "heavy" ||
    lowerIncludes fontName "black" ||
    (decide ((some fontName : Option String) ≠ rf) && decide (fontName ≠ ""))

/-- Citation test from the source:
`/^\d+$/.test(item.str.trim()) && fontSize < 10`. -/
def isCitation (text : String) (fontSize : ℚ) : Bool :=
  isDigitStr (jsTrim text) && decide (fontSize < 10)

/-! ## Font classifier

`fontCounts` is a JavaScript object built by
`allItems.forEach(item => { …; fontCounts[item.fontName]++ })`; its
entries enumerate in first-seen key order (pdf.js font identifiers are
not integer-like strings, so the array-index key exception of the JS
object ordering does not arise).  `Object.entries(...).sort((a, b) =>
b[1] - a[1])` is a stable sort (ES2019), modelled by a stable insertion
sort descending on the count. -/

/-- One step of `fontCounts[item.fontName]++` on an association list in
first-seen key order. -/
def bump : List (String × Nat) → String → List (String × Nat)
  | [], f => [(f, 1)]
  | (g, c) :: t, f => if g = f then (g, c + 1) :: t else (g, c) :: bump t f

/-- The `fontName -> count` table, entries in first-seen order. -/
def fontCounts (names : List String) : List (String × Nat) :=
  names.foldl bump []

/-- Stable insertion (descending by count): the inserted entry, which
precedes the already-sorted entries in the original order, passes only
entries with a strictly larger count. -/
def insertByCountDesc (p : String × Nat) : List (String × Nat) → List (String × Nat)
  | [] => [p]
  | q :: t => if q.2 > p.2 then q :: insertByCountDesc p t else p :: q :: t

/-- Model of `Object.entries(fontCounts).sort((a, b) => b[1] - a[1])`. -/
def sortFontsDesc (l : List (String × Nat)) : List (String × Nat) :=
  l.foldr insertByCountDesc []

/-- Model of `const regularFont = sortedFonts[0]?.[0]` — `none` models the
`undefined` produced on an empty table. -/
def regularFont (names : List String) : RegularFont :=
  (sortFontsDesc (fontCounts names)).head?.map Prod.fst

/-- All font names of the document in extraction order (the first pass
over `pdf.getPage(1) … pdf.getPage(numPages)` collecting `allItems`). -/
def fontNamesOf (pages : List (List GlyphRun)) : List String :=
  pages.flatten.map GlyphRun.fontName

/-! ## Line assembler

`lines[y].push(item)` buckets the page's runs by `Math.round` of the
baseline; `Object.keys(lines).map(Number).sort((a, b) => b - a)` orders
the distinct keys descending; `lines[y].sort((a, b) => a.x - b.x)`
stably orders each bucket by the raw `x`. -/

/-- Insertion into a descending list of (distinct) bucket keys. -/
def insertDescZ (k : ℤ) : List ℤ → List ℤ
  | [] => [k]
  | j :: t => if j > k then j :: insertDescZ k t else k :: j :: t

/-- Model of `.map(Number).sort((a, b) => b - a)` on the distinct bucket keys. -/
def sortDescZ (l : List ℤ) : List ℤ :=
  l.foldr insertDescZ []

/-- Stable insertion ascending by `x`: the inserted run, which precedes
the already-sorted runs in input order, stops at the first run with an
`x` not smaller than its own. -/
def insertByX (r : GlyphRun) : List GlyphRun → List GlyphRun
  | [] => [r]
  | s :: t => if r.x ≤ s.x then r :: s :: t else s :: insertByX r t

/-- Model of `lineItems = lines[y].sort((a, b) => a.x - b.x)` (stable). -/
def sortRunsByX (l : List GlyphRun) : List GlyphRun :=
  l.foldr insertByX []

/-- The bucket of a rounded-`y` key: the page's runs pushed in input
order, then stably sorted by `x`. -/
def lineBucket (page : List GlyphRun) (k : ℤ) : List GlyphRun :=
  sortRunsByX (page.filter fun r => decide (jsRound r.y = k))

/-- The assembled lines of one page: distinct rounded-`y` keys in
descending order, each with its sorted bucket. -/
def assembleLines (page : List GlyphRun) : List (ℤ × List GlyphRun) :=
  (sortDescZ ((page.map fun r => jsRound r.y).dedup)).map fun k => (k, lineBucket page k)

/-! ## Line renderer -/

/-- One run's contribution to its line: citations are skipped, bold runs
are wrapped in `**…**`, others contribute `item.text` verbatim. -/
def renderRun (rf : RegularFont) (r : GlyphRun) : String :=
  if isCitation r.text r.fontSize then ""
  else if isBold rf r.fontName then "**" ++ r.text ++ "**"
  else r.text

/-- Model of `lineItems.forEach(…)` building `lineText`. -/
def renderLine (rf : RegularFont) (runs : List GlyphRun) : String :=
  runs.foldl (fun acc r => acc ++ renderRun rf r) ""

/-- Hypothetical run contribution with no citation filtering, used as
the spec's comparand "as if no run had been filtered". -/
def renderRunKeep (rf : RegularFont) (r : GlyphRun) : String :=
  if isBold rf r.fontName then "**" ++ r.text ++ "**" else r.text

/-- Modelled from the spec: line rendering "as if no run had been
filtered" (citation-flagged runs contribute like any other run). -/
def renderLineKeep (rf : RegularFont) (runs : List GlyphRun) : String :=
  runs.foldl (fun acc r => acc ++ renderRunKeep rf r) ""

/-- Building `pageText`: each assembled line whose rendering does not trim to the
empty string is appended, followed by a newline. -/
def renderPage (rf : RegularFont) (page : List GlyphRun) : String :=
  (assembleLines page).foldl
    (fun acc kl =>
      let lineText := renderLine rf kl.2
      if jsTrim lineText ≠ "" then acc ++ lineText ++ "\n" else acc)
    ""

/-- Modelled from the spec: `pageText` "as if no run had been filtered". -/
def renderPageKeepCitations (rf : RegularFont) (page : List GlyphRun) : String :=
  (assembleLines page).foldl
    (fun acc kl =>
      let lineText := renderLineKeep rf kl.2
      if jsTrim lineText ≠ "" then acc ++ lineText ++ "\n" else acc)
    ""

/-- Building `fullText`: page texts in order, `'\n\n'` prepended for every page
after the first. -/
def renderAllPages (rf : RegularFont) : List (List GlyphRun) → String
  | [] => ""
  | p :: ps => renderPage rf p ++ String.join (ps.map fun q => "\n\n" ++ renderPage rf q)

/-! ## Block segmenter (`formatAsMarkdown`)

Each `markdown += …` of the per-line logic is modelled as the emission of
one `Block`; `renderBlock` is the exact string the source appends. -/

/-- A classified unit of one rendered line's text. -/
inductive Block where
  | paragraph (s : String)
  | bulletItem (s : String)
  | numberedItem (s : String)
  | blank
deriving DecidableEq, Repr

/-- The string the source appends to `markdown` for each block. -/
def renderBlock : Block → String
  | .paragraph s => s ++ "\n"
  | .bulletItem s => "- " ++ s ++ "\n"
  | .numberedItem s => "1. " ++ s ++ "\n"
  | .blank => "\n"

/-- The fixed bullet-glyph set `[•●○■□▪▫✓✗◆◇★☆➤➢⮞]`. -/
def isBulletChar (c : Char) : Bool :=
  ['•', '●', '○', '■', '□', '▪', '▫', '✓', '✗', '◆', '◇', '★', '☆', '➤', '➢', '⮞'].contains c

/-- Model of `bulletRegex.test(trimmed)`: some bullet glyph occurs in the line. -/
def containsBullet (s : String) : Bool := s.data.any isBulletChar

/-- The test `^[•●…⮞]$`: the string is exactly one bullet glyph. -/
def isSingleBullet (s : String) : Bool :=
  match s.data with
  | [c] => isBulletChar c
  | _ => false

/-- Model of `trimmed.split(new RegExp('([•●…⮞])'))`: split on each bullet glyph,
keeping the glyphs (capture group) as their own parts; empty parts between
consecutive glyphs and at the ends are kept, as in JavaScript. -/
def splitCapAux (acc : List Char) : List Char → List String
  | [] => [⟨acc.reverse⟩]
  | c :: cs =>
    if isBulletChar c then ⟨acc.reverse⟩ :: ⟨[c]⟩ :: splitCapAux [] cs
    else splitCapAux (c :: acc) cs

/-- See `splitCapAux`. -/
def splitCap (s : String) : List String := splitCapAux [] s.data

/-- The tail `\s+(.+)` of the list-marker patterns: one or more whitespace
characters, then the (greedy, newline-free, nonempty) remainder.  The
all-whitespace-tail backtracking case cannot arise on trimmed input but is
modelled faithfully. -/
def wsThenRest (t : List Char) : Option String :=
  let ws := t.takeWhile jsIsSpace
  if ws.isEmpty then none
  else
    let rest := t.drop ws.length
    if rest.isEmpty then
      match ws.getLast? with
      | some c => if ws.length ≥ 2 && c ≠ '\n' then some ⟨[c]⟩ else none
      | none => none
    else some ⟨rest.takeWhile (· ≠ '\n')⟩

/-- Model of `trimmed.match(/^([•●…⮞]+|[-–—])\s+(.+)/)`, returning capture 2. -/
def bulletStartRest (s : String) : Option String :=
  let cs := s.data
  let run := cs.takeWhile isBulletChar
  if !run.isEmpty then wsThenRest (cs.drop run.length)
  else
    match cs with
    | c :: t => if ['-', '–', '—'].contains c then wsThenRest t else none
    | [] => none

/-- The class `[\.\)]`. -/
def isDotOrParen (c : Char) : Bool := c = '.' || c = ')'

/-- The class `[ivxlcdm]` under the `i` flag. -/
def isRomanChar (c : Char) : Bool :=
  ['i', 'v', 'x', 'l', 'c', 'd', 'm'].contains (lowerChar c)

/-- The class `[a-z]` under the `i` flag. -/
def isAsciiLetter (c : Char) : Bool :=
  ('a' ≤ c && c ≤ 'z') || ('A' ≤ c && c ≤ 'Z')

/-- Model of `trimmed.match(/^(\d+[\.\)]\s+|[a-z][\.\)]\s+|[ivxlcdm]+[\.\)]\s+)(.+)/i)`,
returning capture 2; the three alternatives are tried left to right. -/
def numberedStartRest (s : String) : Option String :=
  let cs := s.data
  let alt1 :=
    let ds := cs.takeWhile Char.isDigit
    if ds.isEmpty then none
    else
      match cs.drop ds.length with
      | c :: t => if isDotOrParen c then wsThenRest t else none
      | [] => none
  match alt1 with
  | some r => some r
  | none =>
    let alt2 :=
      match cs with
      | a :: c :: t => if isAsciiLetter a && isDotOrParen c then wsThenRest t else none
      | _ => none
    match alt2 with
    | some r => some r
    | none =>
      let rs := cs.takeWhile isRomanChar
      if rs.isEmpty then none
      else
        match cs.drop rs.length with
        | c :: t => if isDotOrParen c then wsThenRest t else none
        | [] => none

/-- The `for (let i = 0; i < parts.length; i++)` loop of the mid-line
bullet branch.  `prev` is `parts[i - 1]`, `cur` is `currentText`, `inL` is
`inList`; a bullet part consumes a following nonempty part (`i++`).  The
trailing `if (currentText.trim()) …` flush is the `[]` case.  The `fuel`
argument (always instantiated with the length of `parts`, which bounds the
number of iterations) makes the recursion structural. -/
def bulletLoopF : Nat → Option String → List String → Bool → String → List Block × Bool
  | _, _, [], inL, cur =>
    if jsTrim cur ≠ "" then
      ((if inL then [Block.blank] else []) ++ [Block.paragraph (jsTrim cur)], false)
    else ([], inL)
  | 0, _, _, inL, _ => ([], inL)
  | fuel + 1, prev, p :: rest, inL, cur =>
    let part := jsTrim p
    if part = "" then bulletLoopF fuel (some p) rest inL cur
    else if isSingleBullet part then
      let flushBlocks := if cur ≠ "" then (if inL then [Block.blank] else []) ++ [Block.paragraph cur] else []
      let inL1 := if cur ≠ "" then false else inL
      match rest with
      | [] => (flushBlocks, inL1)
      | q :: rest2 =>
        if jsTrim q ≠ "" then
          let t := bulletLoopF fuel (some q) rest2 true ""
          (flushBlocks ++ Block.bulletItem (jsTrim q) :: t.1, t.2)
        else
          let t := bulletLoopF fuel (some p) (q :: rest2) inL1 ""
          (flushBlocks ++ t.1, t.2)
    else if (match prev with | none => true | some pr => !isSingleBullet (jsTrim pr)) then
      bulletLoopF fuel (some p) rest inL (cur ++ part ++ " ")
    else bulletLoopF fuel (some p) rest inL cur

/-- See `bulletLoopF`. -/
def bulletLoop (prev : Option String) (parts : List String) (inL : Bool) (cur : String) :
    List Block × Bool :=
  bulletLoopF parts.length prev parts inL cur

/-- One line of `formatAsMarkdown`: classify `line.trim()` and emit the
blocks the source appends, together with the updated `inList` flag. -/
def processLine (inL : Bool) (line : String) : List Block × Bool :=
  let trimmed := jsTrim line
  if trimmed = "" then ((if inL then [Block.blank] else []) ++ [Block.blank], false)
  else if containsBullet trimmed then bulletLoop none (splitCap trimmed) inL ""
  else
    match bulletStartRest trimmed with
    | some rest => ([Block.bulletItem rest], true)
    | none =>
      match numberedStartRest trimmed with
      | some rest => ([Block.numberedItem rest], true)
      | none => ((if inL then [Block.blank] else []) ++ [Block.paragraph trimmed], false)

/-- Model of `text.split('\n')` on the character level (agrees with the JS `split`,
including the empty leading/trailing/in-between pieces). -/
def splitNlChars (cs : List Char) : List (List Char) :=
  cs.foldr
    (fun c acc =>
      if c = '\n' then [] :: acc
      else
        match acc with
        | a :: t => (c :: a) :: t
        | [] => [[c]])
    [[]]

/-- Model of `text.split('\n')`. -/
def splitNl (s : String) : List String := (splitNlChars s.data).map fun l => (⟨l⟩ : String)

/-- Model of `fileName.replace(/\.pdf$/i, '')`. -/
def stripPdfExt (s : String) : String :=
  let cs := s.data
  if cs.length ≥ 4 && ((cs.drop (cs.length - 4)).map lowerChar == ".pdf".data) then
    ⟨cs.take (cs.length - 4)⟩
  else s

/-- Model of `file.name.replace(/\.pdf$/i, '.md')`. -/
def toMdName (s : String) : String :=
  let cs := s.data
  if cs.length ≥ 4 && ((cs.drop (cs.length - 4)).map lowerChar == ".pdf".data) then
    ⟨cs.take (cs.length - 4) ++ ".md".data⟩
  else s

/-- Model of the replacement collapsing newline runs: each maximal run of four or
more newlines becomes exactly two. -/
def collapseNewlinesCh : List Char → List Char
  | [] => []
  | c :: cs =>
    if c = '\n' && decide (1 + (cs.takeWhile (· = '\n')).length ≥ 4) then
      '\n' :: '\n' :: collapseNewlinesCh (cs.dropWhile (· = '\n'))
    else c :: collapseNewlinesCh cs
termination_by l => l.length
decreasing_by
  · simp only [List.length_cons]
    have h : (cs.dropWhile (· = '\n')).length ≤ cs.length := (List.dropWhile_sublist _).length_le
    omega
  · simp

/-- See `collapseNewlinesCh`. -/
def collapseNewlines (s : String) : String := ⟨collapseNewlinesCh s.data⟩

/-- Model of `formatAsMarkdown(text, fileName)`: the title heading, then every line
of `text` classified and emitted, then the newline collapse. -/
def formatAsMarkdown (text : String) (fileName : String) : String :=
  let header := "# " ++ stripPdfExt fileName ++ "\n\n"
  let body :=
    (splitNl text).foldl
      (fun (acc : String × Bool) line =>
        let r := processLine acc.2 line
        (acc.1 ++ String.join (r.1.map renderBlock), r.2))
      (header, false)
  collapseNewlines body.1

/-! ## Post-normalizer

Each `markdown.replace(pattern, …)` with the `g` flag is modelled by a
left-to-right scanner: at each position the pattern is tried (with the
backtracking behaviour of the JS engine folded into the match step);
a match emits its replacement and scanning resumes after the match.
Every pattern consumes at least one character, so fuel equal to the
string length always suffices. -/

/-- Global regex replacement: `step` returns the replacement text and the
remainder after the match when the pattern matches at the current
position. -/
def scanRepl (step : List Char → Option (List Char × List Char)) :
    Nat → List Char → List Char
  | 0, cs => cs
  | _ + 1, [] => []
  | fuel + 1, c :: cs =>
    match step (c :: cs) with
    | some (r, rest) => r ++ scanRepl step fuel rest
    | none => c :: scanRepl step fuel cs

/-- Run one global replacement pass over a string. -/
def runPass (step : List Char → Option (List Char × List Char)) (s : String) : String :=
  ⟨scanRepl step s.data.length s.data⟩

/-- Splits `t` before its last `'\n'`, if any. -/
def lastNlSplit (t : List Char) : Option (List Char × List Char) :=
  let i := (t.reverse.takeWhile (· ≠ '\n')).length
  if i = t.length then none
  else some (t.take (t.length - i - 1), t.drop (t.length - i - 1))

/-- Pass 1, `/\s+\d+\s*$/gm → ''`: whitespace, digits, then optional whitespace up
to a line end (end of string, or — via the `m` flag — just before a
newline, the greedy `\s*` stopping before the last newline it reaches). -/
def stepEndCite (cs : List Char) : Option (List Char × List Char) :=
  let ws := cs.takeWhile jsIsSpace
  if ws.isEmpty then none
  else
    let afterWs := cs.drop ws.length
    let ds := afterWs.takeWhile Char.isDigit
    if ds.isEmpty then none
    else
      let afterDs := afterWs.drop ds.length
      let t := afterDs.takeWhile jsIsSpace
      let rest0 := afterDs.drop t.length
      if rest0.isEmpty then some ([], [])
      else
        match lastNlSplit t with
        | some x => some ([], x.2 ++ rest0)
        | none => none

/-- Pass 2, `/\s+\d+\s+/g → ' '`: a mid-line standalone digit group. -/
def stepMidNum (cs : List Char) : Option (List Char × List Char) :=
  let ws := cs.takeWhile jsIsSpace
  if ws.isEmpty then none
  else
    let afterWs := cs.drop ws.length
    let ds := afterWs.takeWhile Char.isDigit
    if ds.isEmpty then none
    else
      let afterDs := afterWs.drop ds.length
      let t := afterDs.takeWhile jsIsSpace
      if t.isEmpty then none
      else some ([' '], afterDs.drop t.length)

/-- Pass 3, `/\.\s*\d+\s/g → '. '`: a digit group after a period. -/
def stepAfterPeriod (cs : List Char) : Option (List Char × List Char) :=
  match cs with
  | '.' :: cs1 =>
    let ws := cs1.takeWhile jsIsSpace
    let afterWs := cs1.drop ws.length
    let ds := afterWs.takeWhile Char.isDigit
    if ds.isEmpty then none
    else
      match afterWs.drop ds.length with
      | c :: rest => if jsIsSpace c then some (['.', ' '], rest) else none
      | [] => none
  | _ => none

/-- Matching `\*\*([^*\n]+)\*\*` at the head: returns the capture and the rest. -/
def boldSpanAt (cs : List Char) : Option (List Char × List Char) :=
  match cs with
  | '*' :: '*' :: cs1 =>
    let g := cs1.takeWhile fun c => c ≠ '*' && c ≠ '\n'
    if g.isEmpty then none
    else
      match cs1.drop g.length with
      | '*' :: '*' :: rest => some (g, rest)
      | _ => none
  | _ => none

/-- The merge replacement `/\*\*([^*\n]+)\*\*\s?\*\*([^*\n]+)\*\*/g → '**$1 $2**'`: merge two
adjacent bold spans (optionally separated by one whitespace). -/
def stepMergeBold (cs : List Char) : Option (List Char × List Char) :=
  match boldSpanAt cs with
  | none => none
  | some (g1, cs2) =>
    let second :=
      match cs2 with
      | c :: cs3 =>
        if jsIsSpace c then
          match boldSpanAt cs3 with
          | some x => some x
          | none => boldSpanAt cs2
        else boldSpanAt cs2
      | [] => none
    match second with
    | some (g2, rest) =>
      some ('*' :: '*' :: (g1 ++ ' ' :: g2) ++ ['*', '*'], rest)
    | none => none

/-- One application of the merge replacement to a whole line. -/
def mergeOnce (s : String) : String := runPass stepMergeBold s

/-- The `for (let i = 0; i < 10; i++) { … if (before === cleaned) break }`
fixed-point loop around `mergeOnce`. -/
def mergeLoop : Nat → String → String
  | 0, s => s
  | n + 1, s =>
    let s2 := mergeOnce s
    if s2 = s then s else mergeLoop n s2

/-- The per-line bold-merging pass (split on `'\n'`, merge, re-join). -/
def mergeBoldPass (md : String) : String :=
  String.intercalate "\n" ((splitNl md).map (mergeLoop 10))

/-- Fix 2, `/(\S)\s+\*\*/g → '$1** '`. -/
def stepFixSpaceBeforeBold (cs : List Char) : Option (List Char × List Char) :=
  match cs with
  | c :: cs1 =>
    if jsIsSpace c then none
    else
      let ws := cs1.takeWhile jsIsSpace
      if ws.isEmpty then none
      else
        match cs1.drop ws.length with
        | '*' :: '*' :: rest => some ([c, '*', '*', ' '], rest)
        | _ => none
  | [] => none

/-- Fix 3, `/\*\*\s*([^*]+?)\s*\*\*/g` with the trimming replacement function:
the span's interior is trimmed; an all-whitespace interior erases the
span. -/
def stepTrimInsideBold (cs : List Char) : Option (List Char × List Char) :=
  match cs with
  | '*' :: '*' :: cs1 =>
    let body := cs1.takeWhile (· ≠ '*')
    if body.isEmpty then none
    else
      match cs1.drop body.length with
      | '*' :: '*' :: rest =>
        let content := trimChars body
        some (if content.isEmpty then [] else '*' :: '*' :: content ++ ['*', '*'], rest)
      | _ => none
  | _ => none

/-- Fix 4a, `/\*\*\*\*/g → ''`. -/
def stepEmptyBold1 (cs : List Char) : Option (List Char × List Char) :=
  match cs with
  | '*' :: '*' :: '*' :: '*' :: rest => some ([], rest)
  | _ => none

/-- Fix 4b, `/\*\*\s*\*\*/g → ''`. -/
def stepEmptyBold2 (cs : List Char) : Option (List Char × List Char) :=
  match cs with
  | '*' :: '*' :: cs1 =>
    let ws := cs1.takeWhile jsIsSpace
    match cs1.drop ws.length with
    | '*' :: '*' :: rest => some ([], rest)
    | _ => none
  | _ => none

/-- Fix 5, `/([^\s\n*])(\*\*[^\s*])/g → '$1 $2'`. -/
def stepSpaceBeforeOpen (cs : List Char) : Option (List Char × List Char) :=
  match cs with
  | a :: '*' :: '*' :: d :: rest =>
    if !jsIsSpace a && a ≠ '*' && !jsIsSpace d && d ≠ '*' then
      some ([a, ' ', '*', '*', d], rest)
    else none
  | _ => none

/-- Fix 6, `/([^\s*]\*\*)([^\s*.,;:!?)\]\n])/g → '$1 $2'`. -/
def stepSpaceAfterClose (cs : List Char) : Option (List Char × List Char) :=
  match cs with
  | a :: '*' :: '*' :: d :: rest =>
    if !jsIsSpace a && a ≠ '*' && !jsIsSpace d && d ≠ '*' &&
        !(['.', ',', ';', ':', '!', '?', ')', ']'].contains d) then
      some ([a, '*', '*', ' ', d], rest)
    else none
  | _ => none

/-- Fix 7, `/  +/g → ' '`: each maximal run of two or more spaces becomes one
(equivalently, each maximal run of spaces keeps exactly one space); the
recursion drops a space whose right-to-left processed remainder begins
with a space. -/
def collapseSpacesCh : List Char → List Char
  | [] => []
  | a :: cs =>
    let r := collapseSpacesCh cs
    if a = ' ' && (r.head? == some ' ') then r else a :: r

/-- See `collapseSpacesCh`. -/
def collapseSpaces (s : String) : String := ⟨collapseSpacesCh s.data⟩

/-- The citation-stripping passes 1–3 of the post-normalizer. -/
def stripEndLineCitations (s : String) : String := runPass stepEndCite s

/-- Pass 2 of the post-normalizer. -/
def stripMidlineNumbers (s : String) : String := runPass stepMidNum s

/-- Pass 3 of the post-normalizer. -/
def stripAfterPeriod (s : String) : String := runPass stepAfterPeriod s

/-- The complete post-processing applied to `formatAsMarkdown`'s output:
the fixed ordered sequence of textual repairs of the source. -/
def postNormalize (md : String) : String :=
  let s1 := stripEndLineCitations md
  let s2 := stripMidlineNumbers s1
  let s3 := stripAfterPeriod s2
  let s4 := mergeBoldPass s3
  let s5 := runPass stepFixSpaceBeforeBold s4
  let s6 := runPass stepTrimInsideBold s5
  let s7 := runPass stepEmptyBold1 s6
  let s8 := runPass stepEmptyBold2 s7
  let s9 := runPass stepSpaceBeforeOpen s8
  let s10 := runPass stepSpaceAfterClose s9
  collapseSpaces s10

/-! ## Conversion entry point -/

/-- The record `convertPdfToMarkdown` resolves with: either
`{success: true, markdown, originalName, pageCount, info: {pages}}` or
`{success: false, error}`. -/
inductive ConvResult where
  | success (markdown : String) (originalName : String) (pageCount : Nat) (infoPages : Nat)
  | failure (error : String)
deriving DecidableEq, Repr

/-- Model of `convertPdfToMarkdown(file)`.  The extraction collaborator
(`file.arrayBuffer`, `pdfjsLib.getDocument`, `getTextContent`) is the
`Except` argument: `.error e` models an exception with message `e`
escaping extraction (caught by the surrounding `try/catch`, which falls
back to a fixed message when `error.message` is falsy); `.ok pages`
models successful extraction of the glyph runs of every page. -/
def convertPdfToMarkdown (fileName : String)
    (extraction : Except String (List (List GlyphRun))) : ConvResult :=
  match extraction with
  | .error e => .failure (if e = "" then "Failed to convert PDF to markdown" else e)
  | .ok pages =>
    let rf := regularFont (fontNamesOf pages)
    let fullText := renderAllPages rf pages
    if jsTrim fullText = "" then .failure "No text content found in PDF"
    else
      .success (postNormalize (formatAsMarkdown fullText fileName)) (toMdName fileName)
        pages.length pages.length

/-! ## Properties of the key sort -/

theorem mem_insertDescZ {a k : ℤ} {l : List ℤ} : a ∈ insertDescZ k l ↔ a = k ∨ a ∈ l := by
  induction l with
  | nil => simp [insertDescZ]
  | cons j t ih =>
    simp only [insertDescZ]
    split
    · simp [ih]
      tauto
    · simp

theorem perm_insertDescZ (k : ℤ) (l : List ℤ) : List.Perm (insertDescZ k l) (k :: l) := by
  induction l with
  | nil => exact List.Perm.refl _
  | cons j t ih =>
    simp only [insertDescZ]
    split
    · exact (ih.cons j).trans (List.Perm.swap k j t)
    · exact List.Perm.refl _

theorem perm_sortDescZ (l : List ℤ) : List.Perm (sortDescZ l) l := by
  induction l with
  | nil => exact List.Perm.refl _
  | cons j t ih => exact (perm_insertDescZ j (sortDescZ t)).trans (ih.cons j)

theorem pairwise_ge_insertDescZ {k : ℤ} {l : List ℤ} (h : l.Pairwise (· ≥ ·)) :
    (insertDescZ k l).Pairwise (· ≥ ·) := by
  induction l with
  | nil => simp [insertDescZ]
  | cons j t ih =>
    rcases List.pairwise_cons.mp h with ⟨h1, h2⟩
    simp only [insertDescZ]
    split
    · refine List.Pairwise.cons ?_ (ih h2)
      intro x hx
      rcases mem_insertDescZ.mp hx with rfl | hx
      · omega
      · exact h1 x hx
    · refine List.Pairwise.cons ?_ h
      intro x hx
      rcases List.mem_cons.mp hx with rfl | hx
      · omega
      · have := h1 x hx
        omega

theorem pairwise_sortDescZ (l : List ℤ) : (sortDescZ l).Pairwise (· ≥ ·) := by
  induction l with
  | nil => simp [sortDescZ]
  | cons j t ih => exact pairwise_ge_insertDescZ ih

theorem sortDescZ_strict {l : List ℤ} (h : l.Nodup) : (sortDescZ l).Pairwise (· > ·) := by
  have hnd : (sortDescZ l).Nodup := (perm_sortDescZ l).symm.nodup h
  exact ((pairwise_sortDescZ l).and hnd).imp fun hab => by omega

/-! ## Properties of the in-line x sort -/

theorem mem_insertByX {a r : GlyphRun} {l : List GlyphRun} :
    a ∈ insertByX r l ↔ a = r ∨ a ∈ l := by
  induction l with
  | nil => simp [insertByX]
  | cons s t ih =>
    simp only [insertByX]
    split
    · simp
    · simp [ih]
      tauto

theorem perm_insertByX (r : GlyphRun) (l : List GlyphRun) :
    List.Perm (insertByX r l) (r :: l) := by
  induction l with
  | nil => exact List.Perm.refl _
  | cons s t ih =>
    simp only [insertByX]
    split
    · exact List.Perm.refl _
    · exact (ih.cons s).trans (List.Perm.swap r s t)

theorem perm_sortRunsByX (l : List GlyphRun) : List.Perm (sortRunsByX l) l := by
  induction l with
  | nil => exact List.Perm.refl _
  | cons s t ih => exact (perm_insertByX s (sortRunsByX t)).trans (ih.cons s)

theorem pairwise_le_insertByX {r : GlyphRun} {l : List GlyphRun}
    (h : l.Pairwise fun a b => a.x ≤ b.x) :
    (insertByX r l).Pairwise fun a b => a.x ≤ b.x := by
  induction l with
  | nil => simp [insertByX]
  | cons s t ih =>
    rcases List.pairwise_cons.mp h with ⟨h1, h2⟩
    simp only [insertByX]
    split
    · refine List.Pairwise.cons ?_ h
      intro a ha
      rcases List.mem_cons.mp ha with rfl | ha
      · assumption
      · exact le_trans (by assumption) (h1 a ha)
    · refine List.Pairwise.cons ?_ (ih h2)
      intro a ha
      rcases mem_insertByX.mp ha with rfl | ha
      · exact le_of_lt (lt_of_not_le (by assumption))
      · exact h1 a ha

theorem pairwise_sortRunsByX (l : List GlyphRun) :
    (sortRunsByX l).Pairwise fun a b => a.x ≤ b.x := by
  induction l with
  | nil => simp [sortRunsByX]
  | cons s t ih => exact pairwise_le_insertByX ih

/-! ## C9 -/

/-- C9: for every page, the assembled lines are strictly descending in
their rounded-`y` keys, and inside each line the runs are ascending in
raw `x` (with equal `x` permitted). -/
theorem c9_line_assembler_ordering (page : List GlyphRun) :
    ((assembleLines page).map Prod.fst).Pairwise (· > ·) ∧
      ∀ kl ∈ assembleLines page, kl.2.Pairwise fun a b : GlyphRun => a.x ≤ b.x := by
  constructor
  · have hkeys : (assembleLines page).map Prod.fst
        = sortDescZ ((page.map fun r => jsRound r.y).dedup) := by
      simp only [assembleLines, List.map_map]
      rw [show (Prod.fst ∘ fun k => (k, lineBucket page k)) = id from rfl, List.map_id]
    rw [hkeys]
    exact sortDescZ_strict (List.nodup_dedup _)
  · intro kl hkl
    obtain ⟨k, _, rfl⟩ := List.mem_map.mp hkl
    exact pairwise_sortRunsByX _

/-- Closed instance of `c9_line_assembler_ordering`, the membership
hypothesis discharged on a concrete page. -/
theorem c9_line_assembler_ordering_witness :
    (((assembleLines [⟨"a", 1, 2, 12, "F"⟩, ⟨"b", 0, 2, 12, "F"⟩, ⟨"c", 0, 0, 12, "F"⟩]).map
        Prod.fst).Pairwise (· > ·)) ∧
      ((2, [⟨"b", 0, 2, 12, "F"⟩, ⟨"a", 1, 2, 12, "F"⟩]) : ℤ × List GlyphRun).2.Pairwise
        (fun a b : GlyphRun => a.x ≤ b.x) :=
  ⟨(c9_line_assembler_ordering _).1,
    (c9_line_assembler_ordering
        [⟨"a", 1, 2, 12, "F"⟩, ⟨"b", 0, 2, 12, "F"⟩, ⟨"c", 0, 0, 12, "F"⟩]).2
      (2, [⟨"b", 0, 2, 12, "F"⟩, ⟨"a", 1, 2, 12, "F"⟩]) (by decide)⟩

/-! ## C3 -/

theorem mem_lineBucket {page : List GlyphRun} {k : ℤ} {r : GlyphRun} :
    r ∈ lineBucket page k ↔ r ∈ page ∧ jsRound r.y = k := by
  unfold lineBucket
  rw [(perm_sortRunsByX _).mem_iff]
  simp [List.mem_filter]

/-- The round-half-away-from-zero rounding named by the spec (modelled
from the spec's words): nonnegative values round as `⌊q + 1/2⌋`, negative
values to the integer of larger absolute value on ties. -/
def roundHalfAwayFromZero (q : ℚ) : ℤ :=
  if 0 ≤ q then jsRound q else -(jsRound (-q))

/-- C3 corrected, counterexample: for the run at `y = -5/2` the assembled
bucket key is `-2` (JavaScript `Math.round`, ties towards `+∞`), while
round-half-away-from-zero yields `-3`. -/
theorem c3_counterexample :
    (assembleLines [⟨"a", 0, Rat.mk' (-5) 2, 12, "F"⟩]).map Prod.fst = [-2] ∧
      roundHalfAwayFromZero (Rat.mk' (-5) 2) = -3 ∧ ((-2 : ℤ) ≠ -3) :=
  ⟨by decide, by decide, by decide⟩

/-- C3 amended: the bucketing key is `⌊y + 1/2⌋` (round-half-up, i.e.
JavaScript `Math.round`), and any two runs of a page with equal rounded
`y` land in the same assembled line. -/
theorem c3_bucket_key_round_half_up (page : List GlyphRun) (r₁ r₂ : GlyphRun)
    (h₁ : r₁ ∈ page) (h₂ : r₂ ∈ page) (hy : jsRound r₁.y = jsRound r₂.y) :
    ∃ kl ∈ assembleLines page, kl.1 = ⌊r₁.y + 1/2⌋ ∧ r₁ ∈ kl.2 ∧ r₂ ∈ kl.2 := by
  refine ⟨(jsRound r₁.y, lineBucket page (jsRound r₁.y)), ?_, ?_, ?_, ?_⟩
  · exact List.mem_map_of_mem _
      ((perm_sortDescZ _).mem_iff.mpr (List.mem_dedup.mpr (List.mem_map_of_mem _ h₁)))
  · exact jsRound_eq_floor _
  · exact mem_lineBucket.mpr ⟨h₁, rfl⟩
  · exact mem_lineBucket.mpr ⟨h₂, hy.symm⟩

/-- Closed instance of `c3_bucket_key_round_half_up`: two runs with
jittered baselines `3/2` and `2` share the rounded key `2`. -/
theorem c3_bucket_key_round_half_up_witness :
    ∃ kl ∈ assembleLines [⟨"a", 0, Rat.mk' 3 2, 12, "F"⟩, ⟨"b", 1, 2, 12, "F"⟩],
      kl.1 = ⌊((⟨"a", 0, Rat.mk' 3 2, 12, "F"⟩ : GlyphRun)).y + 1/2⌋ ∧
        (⟨"a", 0, Rat.mk' 3 2, 12, "F"⟩ : GlyphRun) ∈ kl.2 ∧
        (⟨"b", 1, 2, 12, "F"⟩ : GlyphRun) ∈ kl.2 :=
  c3_bucket_key_round_half_up [⟨"a", 0, Rat.mk' 3 2, 12, "F"⟩, ⟨"b", 1, 2, 12, "F"⟩]
    ⟨"a", 0, Rat.mk' 3 2, 12, "F"⟩ ⟨"b", 1, 2, 12, "F"⟩ (by decide) (by decide) (by decide)

/-! ## C2 -/

/-- C2 corrected, counterexample: a line consisting of a single
citation-flagged run (`"5"` at font size 8) renders to the empty string
and is dropped from the page output, while the unfiltered rendering keeps
it — so filtering does remove a line from the output sequence. -/
theorem c2_counterexample :
    renderPage (some "F") [⟨"5", 0, 0, 8, "F"⟩] = "" ∧
      renderPageKeepCitations (some "F") [⟨"5", 0, 0, 8, "F"⟩] = "5\n" ∧
      ("" : String) ≠ "5\n" :=
  ⟨by decide, by decide, by decide⟩

theorem insertByX_map (f : GlyphRun → GlyphRun) (r : GlyphRun) (l : List GlyphRun)
    (hr : (f r).x = r.x) (hl : ∀ s ∈ l, (f s).x = s.x) :
    insertByX (f r) (l.map f) = (insertByX r l).map f := by
  induction l with
  | nil => simp [insertByX]
  | cons s t ih =>
    have hs : (f s).x = s.x := hl s (by simp)
    have ht : ∀ u ∈ t, (f u).x = u.x := fun u hu => hl u (by simp [hu])
    simp only [List.map_cons, insertByX, hr, hs]
    by_cases hx : r.x ≤ s.x
    · simp [if_pos hx]
    · simp [if_neg hx, ih ht]

theorem sortRunsByX_map (f : GlyphRun → GlyphRun) (l : List GlyphRun)
    (hl : ∀ s ∈ l, (f s).x = s.x) :
    sortRunsByX (l.map f) = (sortRunsByX l).map f := by
  induction l with
  | nil => rfl
  | cons r t ih =>
    have ht : ∀ u ∈ t, (f u).x = u.x := fun u hu => hl u (by simp [hu])
    have hst : ∀ u ∈ sortRunsByX t, (f u).x = u.x := fun u hu =>
      ht u ((perm_sortRunsByX t).mem_iff.mp hu)
    calc sortRunsByX ((r :: t).map f)
        = insertByX (f r) (sortRunsByX (t.map f)) := rfl
      _ = insertByX (f r) ((sortRunsByX t).map f) := by rw [ih ht]
      _ = (insertByX r (sortRunsByX t)).map f :=
          insertByX_map f r _ (hl r (by simp)) hst
      _ = (sortRunsByX (r :: t)).map f := rfl

/-- C2 amended, positive part: citation flags are functions of a run's
text and font size, and line assembly depends only on the positions —
rewriting every run's non-positional fields commutes with assembly, so no
Line boundary can change.  (The negative part — an all-citation line being
dropped from the rendered output — is `c2_counterexample`.) -/
theorem c2_assembly_ignores_flags (page : List GlyphRun) (f : GlyphRun → GlyphRun)
    (hf : ∀ r ∈ page, (f r).x = r.x ∧ (f r).y = r.y) :
    assembleLines (page.map f) = (assembleLines page).map fun kl => (kl.1, kl.2.map f) := by
  have hkey : (page.map f).map (fun r => jsRound r.y) = page.map (fun r => jsRound r.y) := by
    rw [List.map_map]
    exact List.map_congr_left fun r hr => by simp [(hf r hr).2]
  have hbucket : ∀ k, lineBucket (page.map f) k = (lineBucket page k).map f := by
    intro k
    unfold lineBucket
    rw [List.filter_map]
    have heq : page.filter ((fun r => decide (jsRound r.y = k)) ∘ f)
        = page.filter fun r => decide (jsRound r.y = k) :=
      List.filter_congr fun r hr => by simp [(hf r hr).2]
    rw [heq]
    exact sortRunsByX_map f _ fun s hs => (hf s (List.mem_of_mem_filter hs)).1
  unfold assembleLines
  rw [hkey, List.map_map]
  exact List.map_congr_left fun k _ => by simp [hbucket k]

/-- Closed instance of `c2_assembly_ignores_flags` at a concrete page and
a concrete rewriting of text and font size. -/
theorem c2_assembly_ignores_flags_witness :
    assembleLines (([⟨"5", 0, 0, 8, "F"⟩] : List GlyphRun).map
        fun r => { r with text := "x", fontSize := 12 }) =
      (assembleLines [⟨"5", 0, 0, 8, "F"⟩]).map fun kl =>
        (kl.1, kl.2.map fun r => { r with text := "x", fontSize := 12 }) :=
  c2_assembly_ignores_flags [⟨"5", 0, 0, 8, "F"⟩]
    (fun r => { r with text := "x", fontSize := 12 }) (by decide)

/-! ## C4 -/

/-- C4 corrected, counterexample: on an empty input the classifier yields
`none` (JavaScript `undefined`, from `sortedFonts[0]?.[0]`), not the
empty string. -/
theorem c4_counterexample :
    regularFont [] = none ∧ (none : Option String) ≠ some "" :=
  ⟨by decide, by decide⟩

/-- C4 amended: an empty input yields no regular font (`undefined`); a
run with an empty font name is never flagged bold by the
differs-from-regular rule (for any regular font), which is all the
heuristic can be asked about on a document with no runs. -/
theorem c4_empty_input (rf : RegularFont) :
    regularFont [] = none ∧ isBold rf "" = false := by
  refine ⟨by decide, ?_⟩
  cases rf <;> simp [isBold, lowerIncludes, lowerStr]

/-! ## C7 -/

/-- C7 corrected, counterexample: the leading span is emitted with a
trailing space (`"Intro text "`), because the mid-loop paragraph emission
appends `currentText` without trimming — not `"Intro text"`. -/
theorem c7_counterexample :
    processLine false "Intro text • bullet one • bullet two" ≠
      ([Block.paragraph "Intro text", Block.bulletItem "bullet one",
        Block.bulletItem "bullet two"], true) := by
  decide

/-- C7 amended: the mid-line bulleted line emits the leading paragraph
(with the accumulator's trailing space), then the two bullet items in
order, and sets `inList = true`. -/
theorem c7_midline_bullets :
    processLine false "Intro text • bullet one • bullet two" =
      ([Block.paragraph "Intro text ", Block.bulletItem "bullet one",
        Block.bulletItem "bullet two"], true) := by
  decide

/-! ## C8 -/

/-- C8: a line starting with a bullet glyph emits exactly one
`BulletItem` with the remainder and sets `inList = true` (whatever the
incoming list state). -/
theorem c8_leading_bullet :
    ∀ b : Bool, processLine b "• First item" = ([Block.bulletItem "First item"], true) := by
  decide

/-! ## C1 -/

/-- C1 corrected, counterexample: on `"x 12 34"` one application of the
post-normalizer strips only the trailing `34` (the passes make a single
left-to-right sweep), a second application also strips the `12`; the
trailing-citation pass alone already fails idempotence on this input. -/
theorem c1_counterexample :
    postNormalize (postNormalize "x 12 34") ≠ postNormalize "x 12 34" ∧
      stripEndLineCitations (stripEndLineCitations "x 12 34") ≠
        stripEndLineCitations "x 12 34" :=
  ⟨by decide, by decide⟩

/-- The function `collapseSpacesCh` keeps the head character. -/
theorem head_collapseSpacesCh (l : List Char) :
    (collapseSpacesCh l).head? = l.head? := by
  cases l with
  | nil => rfl
  | cons a cs =>
    simp only [collapseSpacesCh]
    split
    · rename_i h
      have h2 := (Bool.and_eq_true _ _).mp h
      have ha : a = ' ' := by simpa using h2.1
      have hh : (collapseSpacesCh cs).head? = some ' ' := by
        have := h2.2
        simpa using this
      simp [hh, ha]
    · simp

/-- No two adjacent spaces. -/
def noDoubleSpace : List Char → Bool
  | a :: b :: t => !(a = ' ' && b = ' ') && noDoubleSpace (b :: t)
  | _ => true

theorem noDoubleSpace_cons {a : Char} {l : List Char}
    (h1 : a = ' ' → l.head? ≠ some ' ') (h2 : noDoubleSpace l) :
    noDoubleSpace (a :: l) := by
  cases l with
  | nil => rfl
  | cons b t =>
    simp only [noDoubleSpace, Bool.and_eq_true, Bool.not_eq_true', Bool.and_eq_false_iff]
    refine ⟨?_, h2⟩
    by_cases ha : a = ' '
    · have := h1 ha
      right
      simpa using this
    · left
      simpa using ha

theorem noDoubleSpace_tail {a : Char} {l : List Char} (h : noDoubleSpace (a :: l)) :
    noDoubleSpace l := by
  cases l with
  | nil => rfl
  | cons b t =>
    simp only [noDoubleSpace, Bool.and_eq_true] at h
    exact h.2

theorem noDoubleSpace_collapseSpacesCh (l : List Char) :
    noDoubleSpace (collapseSpacesCh l) := by
  induction l with
  | nil => rfl
  | cons a cs ih =>
    simp only [collapseSpacesCh]
    split
    · exact ih
    · rename_i h
      refine noDoubleSpace_cons ?_ ih
      intro ha hh
      apply h
      rw [ha, hh]
      simp

theorem collapseSpacesCh_of_noDoubleSpace {l : List Char} (h : noDoubleSpace l) :
    collapseSpacesCh l = l := by
  induction l with
  | nil => rfl
  | cons a cs ih =>
    have hcs := ih (noDoubleSpace_tail h)
    simp only [collapseSpacesCh, hcs]
    split
    · rename_i hc
      have h2 := (Bool.and_eq_true _ _).mp hc
      have ha : a = ' ' := by simpa using h2.1
      have hh : cs.head? = some ' ' := by simpa using h2.2
      cases cs with
      | nil => simp at hh
      | cons b t =>
        simp only [List.head?_cons, Option.some.injEq] at hh
        rw [ha, hh] at h
        simp [noDoubleSpace] at h
    · rfl

/-- C1 amended, positive part: the final whitespace-collapsing pass is
idempotent for every string (the counterexample shows the
citation-stripping pass, and with it the full ordered sequence, is not). -/
theorem c1_collapse_spaces_idempotent (s : String) :
    collapseSpaces (collapseSpaces s) = collapseSpaces s := by
  unfold collapseSpaces
  exact congrArg String.mk
    (collapseSpacesCh_of_noDoubleSpace (noDoubleSpace_collapseSpacesCh s.data))

/-! ## C6 -/

theorem trimChars_eq_nil_iff (cs : List Char) : trimChars cs = [] ↔ cs.all jsIsSpace := by
  unfold trimChars
  rw [List.reverse_eq_nil_iff, List.dropWhile_eq_nil_iff, List.all_eq_true]
  constructor
  · intro h a ha
    have hsplit : cs = cs.takeWhile jsIsSpace ++ cs.dropWhile jsIsSpace :=
      (List.takeWhile_append_dropWhile jsIsSpace cs).symm
    rw [hsplit] at ha
    rcases List.mem_append.mp ha with hta | hda
    · exact List.mem_takeWhile_imp hta
    · exact h a (List.mem_reverse.mpr hda)
  · intro h a ha
    exact h a ((List.dropWhile_sublist jsIsSpace).mem (List.mem_reverse.mp ha))

theorem jsTrim_eq_empty_iff (s : String) : jsTrim s = "" ↔ s.data.all jsIsSpace := by
  rw [jsTrim, show ("" : String) = ⟨[]⟩ from rfl, String.ext_iff]
  exact trimChars_eq_nil_iff s.data

theorem all_foldl_append {p : Char → Bool} :
    ∀ (L : List String) (acc : String), acc.data.all p → (∀ s ∈ L, s.data.all p) →
      (L.foldl (fun r s => r ++ s) acc).data.all p
  | [], acc, hacc, _ => hacc
  | s :: t, acc, hacc, hL => by
    refine all_foldl_append t (acc ++ s) ?_ fun u hu => hL u (List.mem_cons_of_mem _ hu)
    simp only [String.data_append, List.all_append, Bool.and_eq_true]
    exact ⟨hacc, hL s (List.mem_cons_self _ _)⟩

theorem all_join {p : Char → Bool} (L : List String) (hL : ∀ s ∈ L, s.data.all p) :
    (String.join L).data.all p :=
  all_foldl_append L "" rfl hL

/-- C6: when every page of the document renders to only whitespace, the
conversion produces the failure result with the fixed (nonempty)
empty-content error message — never a success with an empty document. -/
theorem c6_empty_content_error (fileName : String) (pages : List (List GlyphRun))
    (h : ∀ p ∈ pages, jsTrim (renderPage (regularFont (fontNamesOf pages)) p) = "") :
    convertPdfToMarkdown fileName (.ok pages) = .failure "No text content found in PDF" ∧
      "No text content found in PDF" ≠ "" := by
  refine ⟨?_, by decide⟩
  have hall : (renderAllPages (regularFont (fontNamesOf pages)) pages).data.all jsIsSpace := by
    cases pages with
    | nil => decide
    | cons p ps =>
      rw [renderAllPages]
      simp only [String.data_append, List.all_append, Bool.and_eq_true]
      constructor
      · exact (jsTrim_eq_empty_iff _).mp (h p (List.mem_cons_self _ _))
      · refine all_join _ fun s hs => ?_
        obtain ⟨q, hq, rfl⟩ := List.mem_map.mp hs
        simp only [String.data_append, List.all_append, Bool.and_eq_true]
        exact ⟨by decide, (jsTrim_eq_empty_iff _).mp (h q (List.mem_cons_of_mem _ hq))⟩
  have htrim : jsTrim (renderAllPages (regularFont (fontNamesOf pages)) pages) = "" :=
    (jsTrim_eq_empty_iff _).mpr hall
  simp [convertPdfToMarkdown, htrim]

/-- Closed instance of `c6_empty_content_error` on a one-page document
whose single run is two spaces. -/
theorem c6_empty_content_error_witness :
    convertPdfToMarkdown "doc.pdf" (.ok [[⟨"  ", 0, 0, 12, "F"⟩]]) =
        .failure "No text content found in PDF" ∧
      "No text content found in PDF" ≠ "" :=
  c6_empty_content_error "doc.pdf" [[⟨"  ", 0, 0, 12, "F"⟩]] (by decide)

/-! ## C10 -/

/-- C10: the conversion entry point is total at its interface — every
input yields either a success record or a failure record with a nonempty
error message (extraction failures are surfaced, a falsy `error.message`
falls back to the fixed message, and the internal empty-content throw is
caught into a failure result). -/
theorem c10_total_interface (fileName : String)
    (extraction : Except String (List (List GlyphRun))) :
    (∃ md nm pc ip, convertPdfToMarkdown fileName extraction = .success md nm pc ip) ∨
      (∃ e, convertPdfToMarkdown fileName extraction = .failure e ∧ e ≠ "") := by
  cases extraction with
  | error e =>
    right
    by_cases he : e = ""
    · exact ⟨"Failed to convert PDF to markdown", by simp [convertPdfToMarkdown, he], by decide⟩
    · exact ⟨e, by simp [convertPdfToMarkdown, he], he⟩
  | ok pages =>
    by_cases ht : jsTrim (renderAllPages (regularFont (fontNamesOf pages)) pages) = ""
    · right
      exact ⟨"No text content found in PDF", by simp [convertPdfToMarkdown, ht], by decide⟩
    · left
      exact ⟨postNormalize (formatAsMarkdown (renderAllPages (regularFont (fontNamesOf pages))
          pages) fileName), toMdName fileName, pages.length, pages.length,
        by simp [convertPdfToMarkdown, ht]⟩

/-! ## C5: characterizing the font table

`fontCounts` (a left fold of `bump`) is shown equal to `fcNew [] names`,
a structural description: one entry per distinct font name, in order of
first occurrence, counting all occurrences. -/

/-- The keys of the font table. -/
abbrev keysOf (l : List (String × Nat)) : List String := l.map Prod.fst

/-- Structural form of the font table: `fcNew seen rest` lists, for each
first occurrence in `rest` of a name not in `seen`, the name with its
number of occurrences in the remaining input. -/
def fcNew : List String → List String → List (String × Nat)
  | _, [] => []
  | seen, f :: t =>
    if f ∈ seen then fcNew seen t else (f, 1 + t.count f) :: fcNew (f :: seen) t

theorem keysOf_bump (acc : List (String × Nat)) (f : String) :
    keysOf (bump acc f) = if f ∈ keysOf acc then keysOf acc else keysOf acc ++ [f] := by
  induction acc with
  | nil => simp [bump, keysOf]
  | cons gc t ih =>
    obtain ⟨g, c⟩ := gc
    by_cases hgf : g = f
    · subst hgf
      simp [bump, keysOf]
    · have hm : (f ∈ keysOf ((g, c) :: t)) ↔ (f ∈ keysOf t) := by
        simp [keysOf, Ne.symm hgf]
      simp only [bump, if_neg hgf, keysOf, List.map_cons] at ih ⊢
      by_cases hmt : f ∈ t.map Prod.fst
      · rw [ih]
        simp [hmt, Ne.symm hgf]
      · rw [ih]
        simp [hmt, Ne.symm hgf]

theorem map_bump_id {f : String} {l : List (String × Nat)} (h : f ∉ keysOf l) :
    (l.map fun p => if p.1 = f then (p.1, p.2 + 1) else p) = l := by
  induction l with
  | nil => rfl
  | cons p t ih =>
    simp only [keysOf, List.map_cons, List.mem_cons] at h
    push_neg at h
    simp only [List.map_cons, if_neg (fun hc : p.1 = f => h.1 hc.symm)]
    rw [ih h.2]

theorem bump_of_mem {acc : List (String × Nat)} {f : String}
    (hnd : (keysOf acc).Nodup) (hm : f ∈ keysOf acc) :
    bump acc f = acc.map fun p => if p.1 = f then (p.1, p.2 + 1) else p := by
  induction acc with
  | nil => simp [keysOf] at hm
  | cons gc t ih =>
    obtain ⟨g, c⟩ := gc
    simp only [keysOf, List.map_cons, List.nodup_cons] at hnd
    by_cases hgf : g = f
    · have hnotin : f ∉ keysOf t := by
        rw [← hgf]
        exact hnd.1
      simp only [bump, if_pos hgf, List.map_cons, if_pos hgf]
      rw [map_bump_id hnotin, hgf]
    · simp only [keysOf, List.map_cons, List.mem_cons] at hm
      rcases hm with hm | hm
      · exact absurd hm.symm hgf
      · simp only [bump, if_neg hgf, List.map_cons, if_neg hgf]
        rw [ih hnd.2 hm]

theorem bump_of_not_mem {acc : List (String × Nat)} {f : String} (hm : f ∉ keysOf acc) :
    bump acc f = acc ++ [(f, 1)] := by
  induction acc with
  | nil => rfl
  | cons gc t ih =>
    obtain ⟨g, c⟩ := gc
    simp only [keysOf, List.map_cons, List.mem_cons] at hm
    push_neg at hm
    simp only [bump, if_neg (fun hc : g = f => hm.1 hc.symm), List.cons_append]
    rw [ih hm.2]

theorem fcNew_congr : ∀ (rest : List String) (s₁ s₂ : List String),
    (∀ x, x ∈ s₁ ↔ x ∈ s₂) → fcNew s₁ rest = fcNew s₂ rest
  | [], _, _, _ => rfl
  | f :: t, s₁, s₂, h => by
    simp only [fcNew]
    by_cases hf : f ∈ s₁
    · rw [if_pos hf, if_pos ((h f).mp hf), fcNew_congr t s₁ s₂ h]
    · rw [if_neg hf, if_neg (fun hc => hf ((h f).mpr hc)),
        fcNew_congr t (f :: s₁) (f :: s₂) (fun x => by simp [List.mem_cons, h x])]

theorem foldl_bump_eq : ∀ (rest : List String) (acc : List (String × Nat)),
    (keysOf acc).Nodup →
    List.foldl bump acc rest
      = acc.map (fun p => (p.1, p.2 + rest.count p.1)) ++ fcNew (keysOf acc) rest
  | [], acc, _ => by
    simp [fcNew]
  | f :: t, acc, hnd => by
    rw [List.foldl_cons]
    by_cases hmem : f ∈ keysOf acc
    · have hbump := bump_of_mem hnd hmem
      have hkeys : keysOf (bump acc f) = keysOf acc := by
        rw [keysOf_bump, if_pos hmem]
      rw [foldl_bump_eq t (bump acc f) (hkeys ▸ hnd), hkeys, hbump, List.map_map]
      congr 1
      · apply List.map_congr_left
        intro p _
        by_cases hpf : p.1 = f
        · rw [Function.comp_apply, if_pos hpf]
          dsimp only
          rw [hpf, List.count_cons_self]
          exact congrArg (Prod.mk f) (by omega)
        · simp only [Function.comp_apply, if_neg hpf,
            List.count_cons_of_ne hpf t]
      · simp [fcNew, hmem]
    · rw [bump_of_not_mem hmem]
      have hkeys : keysOf (acc ++ [(f, 1)]) = keysOf acc ++ [f] := by
        simp [keysOf]
      have hnd' : (keysOf (acc ++ [(f, 1)])).Nodup := by
        rw [hkeys]
        simp [List.nodup_append, hnd, hmem]
      rw [foldl_bump_eq t _ hnd', List.map_append, hkeys]
      have h1 : acc.map (fun p => (p.1, p.2 + t.count p.1))
          = acc.map fun p => (p.1, p.2 + (f :: t).count p.1) := by
        apply List.map_congr_left
        intro p hp
        have hpf : p.1 ≠ f := fun hc => hmem (hc ▸ List.mem_map_of_mem Prod.fst hp)
        rw [List.count_cons_of_ne hpf]
      have h2 : fcNew (keysOf acc ++ [f]) t = fcNew (f :: keysOf acc) t :=
        fcNew_congr t _ _ fun x => by
          simp only [List.mem_append, List.mem_cons, List.mem_singleton]
          tauto
      rw [← h1, h2]
      simp only [fcNew, if_neg hmem, List.map_cons, List.map_nil, List.append_assoc,
        List.singleton_append, List.cons_append, List.nil_append]

theorem fontCounts_eq_fcNew (names : List String) : fontCounts names = fcNew [] names := by
  rw [fontCounts, foldl_bump_eq names [] (by simp)]
  rfl

theorem fcNew_mem : ∀ {rest seen : List String} {f : String} {c : ℕ},
    (f, c) ∈ fcNew seen rest → f ∉ seen ∧ f ∈ rest ∧ c = rest.count f := by
  intro rest
  induction rest with
  | nil =>
    intro seen f c h
    simp [fcNew] at h
  | cons g t ih =>
    intro seen f c h
    by_cases hg : g ∈ seen
    · rw [fcNew, if_pos hg] at h
      obtain ⟨h1, h2, h3⟩ := ih h
      have hfg : f ≠ g := fun hc => h1 (hc ▸ hg)
      exact ⟨h1, List.mem_cons_of_mem _ h2, by rw [h3, List.count_cons_of_ne hfg]⟩
    · rw [fcNew, if_neg hg] at h
      rcases List.mem_cons.mp h with h | h
      · rw [Prod.mk.injEq] at h
        obtain ⟨rfl, rfl⟩ := h
        refine ⟨hg, List.mem_cons_self _ _, ?_⟩
        rw [List.count_cons_self]
        omega
      · obtain ⟨h1, h2, h3⟩ := ih h
        simp only [List.mem_cons] at h1
        push_neg at h1
        exact ⟨h1.2, List.mem_cons_of_mem _ h2,
          by rw [h3, List.count_cons_of_ne h1.1]⟩

theorem fcNew_complete : ∀ {rest seen : List String} {f : String},
    f ∈ rest → f ∉ seen → ∃ c, (f, c) ∈ fcNew seen rest := by
  intro rest
  induction rest with
  | nil =>
    intro seen f h
    simp at h
  | cons g t ih =>
    intro seen f hf hseen
    by_cases hg : g ∈ seen
    · have hfg : f ≠ g := fun hc => hseen (hc ▸ hg)
      rcases List.mem_cons.mp hf with hc | hf
      · exact absurd hc hfg
      · obtain ⟨c, hc⟩ := ih hf hseen
        exact ⟨c, by rw [fcNew, if_pos hg]; exact hc⟩
    · by_cases hfg : f = g
      · subst hfg
        exact ⟨1 + t.count f, by rw [fcNew, if_neg hg]; exact List.mem_cons_self _ _⟩
      · have hf' : f ∈ t := by
          rcases List.mem_cons.mp hf with hc | hf
          · exact absurd hc hfg
          · exact hf
        have hseen' : f ∉ g :: seen := by
          simp only [List.mem_cons]
          push_neg
          exact ⟨hfg, hseen⟩
        obtain ⟨c, hc⟩ := ih hf' hseen'
        exact ⟨c, by rw [fcNew, if_neg hg]; exact List.mem_cons_of_mem _ hc⟩

theorem fcNew_order : ∀ {rest seen : List String} {l₁ l₂ : List (String × Nat)}
    {p : String × Nat}, fcNew seen rest = l₁ ++ p :: l₂ →
    ∀ q ∈ l₁, rest.indexOf q.1 < rest.indexOf p.1 := by
  intro rest
  induction rest with
  | nil =>
    intro seen l₁ l₂ p h
    simp [fcNew] at h
  | cons g t ih =>
    intro seen l₁ l₂ p h q hq
    by_cases hg : g ∈ seen
    · rw [fcNew, if_pos hg] at h
      have hqmem : q ∈ fcNew seen t := by
        rw [h]
        exact List.mem_append_left _ hq
      have hpmem : p ∈ fcNew seen t := by
        rw [h]
        exact List.mem_append_right _ (List.mem_cons_self _ _)
      have hq1 : q.1 ∉ seen := by
        obtain ⟨q1, q2⟩ := q
        exact (fcNew_mem hqmem).1
      have hp1 : p.1 ∉ seen := by
        obtain ⟨p1, p2⟩ := p
        exact (fcNew_mem hpmem).1
      have hq1g : g ≠ q.1 := fun hc => hq1 (hc ▸ hg)
      have hp1g : g ≠ p.1 := fun hc => hp1 (hc ▸ hg)
      have hlt := ih h _ hq
      rw [List.indexOf_cons_ne _ hq1g, List.indexOf_cons_ne _ hp1g]
      omega
    · rw [fcNew, if_neg hg] at h
      cases l₁ with
      | nil => simp at hq
      | cons q₀ l₁x =>
        rw [List.cons_append] at h
        have hhead : q₀ = (g, 1 + t.count g) := (List.cons.injEq .. ▸ h).1.symm
        have htail : fcNew (g :: seen) t = l₁x ++ p :: l₂ := (List.cons.injEq .. ▸ h).2
        have hpmem : p ∈ fcNew (g :: seen) t := by
          rw [htail]
          exact List.mem_append_right _ (List.mem_cons_self _ _)
        have hp1 : p.1 ∉ g :: seen := by
          obtain ⟨p1, p2⟩ := p
          exact (fcNew_mem hpmem).1
        have hp1g : g ≠ p.1 := by
          simp only [List.mem_cons] at hp1
          push_neg at hp1
          exact Ne.symm hp1.1
        rcases List.mem_cons.mp hq with rfl | hq
        · rw [hhead]
          rw [show ((g, 1 + t.count g) : String × Nat).1 = g from rfl,
            List.indexOf_cons_self, List.indexOf_cons_ne _ hp1g]
          omega
        · have hqmem : q ∈ fcNew (g :: seen) t := by
            rw [htail]
            exact List.mem_append_left _ hq
          have hq1 : q.1 ∉ g :: seen := by
            obtain ⟨q1, q2⟩ := q
            exact (fcNew_mem hqmem).1
          have hq1g : g ≠ q.1 := by
            simp only [List.mem_cons] at hq1
            push_neg at hq1
            exact Ne.symm hq1.1
          have hlt := ih htail _ hq
          rw [List.indexOf_cons_ne _ hq1g, List.indexOf_cons_ne _ hp1g]
          omega

/-! ### The head of the stable descending sort -/

/-- The first entry attaining the maximal count (earlier entries win
ties). -/
def firstMax : List (String × Nat) → Option (String × Nat)
  | [] => none
  | p :: t =>
    match firstMax t with
    | none => some p
    | some q => if q.2 > p.2 then some q else some p

theorem head_sortFontsDesc (l : List (String × Nat)) :
    (sortFontsDesc l).head? = firstMax l := by
  induction l with
  | nil => rfl
  | cons p t ih =>
    have hstep : sortFontsDesc (p :: t) = insertByCountDesc p (sortFontsDesc t) := rfl
    rw [hstep]
    cases hs : sortFontsDesc t with
    | nil =>
      have hft : firstMax t = none := by rw [← ih, hs]; rfl
      simp [firstMax, hft, insertByCountDesc]
    | cons q0 rest =>
      have hft : firstMax t = some q0 := by rw [← ih, hs]; rfl
      simp only [firstMax, hft, insertByCountDesc]
      by_cases hgt : q0.2 > p.2
      · simp [hgt]
      · simp [hgt]

theorem firstMax_eq_none_iff (l : List (String × Nat)) : firstMax l = none ↔ l = [] := by
  cases l with
  | nil => simp [firstMax]
  | cons p t =>
    simp only [List.cons_ne_nil, iff_false]
    intro h
    cases hft : firstMax t with
    | none => simp [firstMax, hft] at h
    | some q =>
      by_cases hgt : q.2 > p.2 <;> simp [firstMax, hft, hgt] at h

theorem firstMax_spec : ∀ {l : List (String × Nat)} {p : String × Nat},
    firstMax l = some p →
    ∃ l₁ l₂, l = l₁ ++ p :: l₂ ∧ (∀ q ∈ l₁, q.2 < p.2) ∧ ∀ q ∈ l₂, q.2 ≤ p.2 := by
  intro l
  induction l with
  | nil =>
    intro p h
    simp [firstMax] at h
  | cons a t ih =>
    intro p h
    cases hft : firstMax t with
    | none =>
      rw [firstMax, hft] at h
      have ht : t = [] := (firstMax_eq_none_iff t).mp hft
      subst ht
      injection h with h
      subst h
      exact ⟨[], [], rfl, by simp, by simp⟩
    | some q =>
      simp only [firstMax, hft] at h
      obtain ⟨l₁, l₂, hdec, h1, h2⟩ := ih hft
      by_cases hgt : q.2 > a.2
      · rw [if_pos hgt] at h
        injection h with h
        subst h
        refine ⟨a :: l₁, l₂, by rw [hdec, List.cons_append], ?_, h2⟩
        intro r hr
        rcases List.mem_cons.mp hr with rfl | hr
        · exact hgt
        · exact h1 r hr
      · rw [if_neg hgt] at h
        injection h with h
        subst h
        refine ⟨[], t, rfl, by simp, ?_⟩
        intro r hr
        rw [hdec] at hr
        rcases List.mem_append.mp hr with hr | hr
        · exact le_of_lt (lt_of_lt_of_le (h1 r hr) (le_of_not_gt hgt))
        · rcases List.mem_cons.mp hr with rfl | hr
          · exact le_of_not_gt hgt
          · exact le_trans (h2 r hr) (le_of_not_gt hgt)

/-- C5: on a nonempty input the classifier returns a font name occurring
in the document, whose occurrence count is maximal, and whose first
occurrence is earliest among the fonts attaining the maximal count. -/
theorem c5_regular_font_first_seen_max (names : List String) (hne : names ≠ []) :
    ∃ f, regularFont names = some f ∧ f ∈ names ∧
      (∀ g ∈ names, names.count g ≤ names.count f) ∧
      ∀ g ∈ names, names.count g = names.count f → names.indexOf f ≤ names.indexOf g := by
  have hfc : fontCounts names ≠ [] := by
    cases names with
    | nil => exact absurd rfl hne
    | cons n t =>
      rw [fontCounts_eq_fcNew]
      simp only [fcNew, List.not_mem_nil, if_neg (fun h => h)]
      exact List.cons_ne_nil _ _
  obtain ⟨p, hp⟩ : ∃ p, firstMax (fontCounts names) = some p := by
    cases hfm : firstMax (fontCounts names) with
    | none => exact absurd ((firstMax_eq_none_iff _).mp hfm) hfc
    | some p => exact ⟨p, rfl⟩
  obtain ⟨f, c⟩ := p
  have hreg : regularFont names = some f := by
    rw [regularFont, head_sortFontsDesc, hp]
    rfl
  obtain ⟨l₁, l₂, hdec, h1, h2⟩ := firstMax_spec hp
  have hdecNew : fcNew [] names = l₁ ++ (f, c) :: l₂ := by
    rw [← fontCounts_eq_fcNew, hdec]
  have hpmem : (f, c) ∈ fontCounts names := by
    rw [hdec]
    exact List.mem_append_right _ (List.mem_cons_self _ _)
  have hpfacts := fcNew_mem (fontCounts_eq_fcNew names ▸ hpmem)
  have hfmem : f ∈ names := hpfacts.2.1
  have hcount : c = names.count f := hpfacts.2.2
  have hentry : ∀ g ∈ names, (g, names.count g) ∈ fontCounts names := by
    intro g hg
    obtain ⟨cg, hcg⟩ := @fcNew_complete names [] g hg (by simp)
    have := (fcNew_mem hcg).2.2
    rw [fontCounts_eq_fcNew]
    exact this ▸ hcg
  have hmax : ∀ g ∈ names, names.count g ≤ names.count f := by
    intro g hg
    have hmem := hentry g hg
    rw [hdec] at hmem
    rcases List.mem_append.mp hmem with hmem | hmem
    · have := h1 _ hmem
      simp only at this
      omega
    · rcases List.mem_cons.mp hmem with heq | hmem
      · rw [Prod.mk.injEq] at heq
        omega
      · have := h2 _ hmem
        simp only at this
        omega
  refine ⟨f, hreg, hfmem, hmax, ?_⟩
  intro g hg hcnt
  by_cases hgf : g = f
  · subst hgf
    exact le_refl _
  · have hmem := hentry g hg
    rw [hdec] at hmem
    rcases List.mem_append.mp hmem with hmem | hmem
    · have := h1 _ hmem
      simp only at this
      omega
    · rcases List.mem_cons.mp hmem with heq | hmem
      · rw [Prod.mk.injEq] at heq
        exact absurd heq.1 hgf
      · obtain ⟨l₂a, l₂b, hsplit⟩ := List.append_of_mem hmem
        have hdec2 : fcNew [] names = (l₁ ++ (f, c) :: l₂a) ++ (g, names.count g) :: l₂b := by
          rw [hdecNew, hsplit]
          simp [List.append_assoc]
        have := fcNew_order hdec2 (f, c)
          (List.mem_append_right _ (List.mem_cons_self _ _))
        exact le_of_lt (this)

/-- Closed instance of `c5_regular_font_first_seen_max`: `"A"` and `"B"`
are tied at two occurrences each and the first-seen `"A"` wins. -/
theorem c5_regular_font_first_seen_max_witness :
    ∃ f, regularFont ["A", "B", "B", "A"] = some f ∧ f ∈ ["A", "B", "B", "A"] ∧
      (∀ g ∈ ["A", "B", "B", "A"],
        List.count g ["A", "B", "B", "A"] ≤ List.count f ["A", "B", "B", "A"]) ∧
      ∀ g ∈ ["A", "B", "B", "A"],
        List.count g ["A", "B", "B", "A"] = List.count f ["A", "B", "B", "A"] →
          List.indexOf f ["A", "B", "B", "A"] ≤ List.indexOf g ["A", "B", "B", "A"] :=
  c5_regular_font_first_seen_max ["A", "B", "B", "A"] (by decide)

end MdView
